import Mathlib

/-!
Verification development for the help-bubble customer-support QA service.

The embedding models the two core components of the repository:

* the answer scorer of `backend/evaluate.py` (`QAEvaluator.normalize_answer`,
  `exact_match_score`, `f1_score`, `evaluate_sample`, `evaluate_dataset`), and
* the context router and fallback path of `backend/main.py`
  (`find_best_context`, `get_fallback_answer`).

Strings are modelled as `List Char` at the character level.  Character
classes (`string.punctuation`, the regex `\b` word characters, `str.lower`,
`str.split` whitespace) are modelled at the ASCII level, which covers the
repository's data and test strings.  Scores are modelled as rationals `ℚ`
(the Python code computes the same field operations in floating point).
-/

namespace HelpBubble

/-- The 32 characters of Python `string.punctuation`, by ASCII code:
codes 33-47, 58-64, 91-96 and 123-126.  `QAEvaluator.normalize_answer`
deletes exactly these characters. -/
def isPunct (c : Char) : Bool :=
  (33 ≤ c.toNat && c.toNat ≤ 47) || (58 ≤ c.toNat && c.toNat ≤ 64) ||
    (91 ≤ c.toNat && c.toNat ≤ 96) || (123 ≤ c.toNat && c.toNat ≤ 126)

/-- Word characters of the regex `\b` boundary in `remove_articles`
(`re.sub(r'\b(a|an|the)\b', ' ', text)`): letters, digits and underscore. -/
def wordChar (c : Char) : Bool :=
  c.isAlphanum || c = '_'

/-- Whitespace, as used by `text.split()` in `white_space_fix`. -/
def isSp (c : Char) : Bool :=
  c.isWhitespace

/-- Models `lower(text)`: `text.lower()` of `normalize_answer`. -/
def lowerChars (cs : List Char) : List Char :=
  cs.map Char.toLower

/-- Models `remove_punc(text)`: keep exactly the characters not in
`string.punctuation`. -/
def remPunc (cs : List Char) : List Char :=
  cs.filter (fun c => !isPunct c)

/-- The trailing `\b` test of a candidate article match: the position after
the match is a word boundary iff the string ends there or the next character
is not a word character. -/
def bAfter : List Char → Bool
  | [] => true
  | c :: _ => !wordChar c

/-- Models `remove_articles(text)`: left-to-right scan of
`re.sub(r'\b(a|an|the)\b', ' ', text)`.  The flag is true iff the previous
character of the original string is a word character (so a match may start
only when it is false, the leading `\b`); the regex alternatives are tried
in order at each position, each with its trailing `\b` (a match of `a`
directly before a word character such as `n` is impossible, so the `an`
test fires exactly when its `n` is present); each matched article is
replaced by one space and the scan resumes after it with the last matched
(word) character as previous state. -/
def remArt : Bool → List Char → List Char
  | _, [] => []
  | true, c :: cs => c :: remArt (wordChar c) cs
  | false, 'a' :: 'n' :: cs =>
      if bAfter cs then ' ' :: remArt true cs
      else 'a' :: remArt true ('n' :: cs)
  | false, 'a' :: cs =>
      if bAfter cs then ' ' :: remArt true cs
      else 'a' :: remArt true cs
  | false, 't' :: 'h' :: 'e' :: cs =>
      if bAfter cs then ' ' :: remArt true cs
      else 't' :: remArt true ('h' :: 'e' :: cs)
  | false, c :: cs => c :: remArt (wordChar c) cs

/-- Models `text.split()`: split on runs of whitespace, discarding empty pieces. -/
def splitWs : List Char → List (List Char)
  | [] => []
  | [c] => if isSp c then [] else [[c]]
  | c :: d :: cs =>
    if isSp c then splitWs (d :: cs)
    else if isSp d then [c] :: splitWs (d :: cs)
    else
      match splitWs (d :: cs) with
      | [] => [[c]]
      | w :: ws => (c :: w) :: ws

/-- Models `' '.join(words)`. -/
def joinSp : List (List Char) → List Char
  | [] => []
  | [w] => w
  | w :: w2 :: ws => w ++ ' ' :: joinSp (w2 :: ws)

/-- Models `white_space_fix(text)`: `' '.join(text.split())`. -/
def wsFix (cs : List Char) : List Char :=
  joinSp (splitWs cs)

/-- Models `QAEvaluator.normalize_answer` on the character list:
`white_space_fix(remove_articles(remove_punc(lower(s))))`. -/
def normChars (cs : List Char) : List Char :=
  wsFix (remArt false (remPunc (lowerChars cs)))

/-- Models `QAEvaluator.normalize_answer(s)`. -/
def normalize_answer (s : String) : String :=
  String.mk (normChars s.data)

/-- The whitespace token sequence of the normalized answer:
`normalize_answer(s).split()` as used by `f1_score`. -/
def answerTokens (s : String) : List (List Char) :=
  splitWs (normChars s.data)

/-- Models `QAEvaluator.exact_match_score`:
`int(normalize_answer(prediction) == normalize_answer(ground_truth))`. -/
def exact_match_score (prediction ground_truth : String) : Nat :=
  if normalize_answer prediction = normalize_answer ground_truth then 1 else 0

/-- Models `QAEvaluator.f1_score`.  `Counter(pred) & Counter(truth)` followed by
`sum(common.values())` is the size of the multiset intersection of the two
token sequences, i.e. `List.bagInter` length. -/
def f1_score (prediction ground_truth : String) : ℚ :=
  let pred_tokens := answerTokens prediction
  let truth_tokens := answerTokens ground_truth
  if pred_tokens.length = 0 ∨ truth_tokens.length = 0 then
    (if pred_tokens = truth_tokens then 1 else 0)
  else
    let num_same := (pred_tokens.bagInter truth_tokens).length
    if num_same = 0 then 0
    else
      let prec : ℚ := num_same / pred_tokens.length
      let recl : ℚ := num_same / truth_tokens.length
      2 * prec * recl / (prec + recl)

example : normalize_answer "The Shipping costs $15.99!" = "shipping costs 1599" := by decide
example : normalize_answer "an apple a day" = "apple day" := by decide
example : normalize_answer "a-la-carte" = "alacarte" := by decide
example : exact_match_score "30 days" "30 days" = 1 := by decide
example : exact_match_score "30 days" "thirty days" = 0 := by decide
/-! ### Context router and fallback path (`backend/main.py`) -/

/-- Models `question.lower()`. -/
def strLower (s : String) : String :=
  String.mk (s.data.map Char.toLower)

/-- Python substring containment `needle in haystack`. -/
def occursIn (needle haystack : String) : Prop :=
  needle.data <:+: haystack.data

instance (needle haystack : String) : Decidable (occursIn needle haystack) :=
  List.decidableInfix needle.data haystack.data

/-- The keyword map of `find_best_context`, in the source's (insertion)
order.  Each category of `ECOMMERCE_CONTEXTS` maps to its keyword triggers. -/
def keywordMap : List (String × List String) :=
  [("returns", ["return", "refund", "exchange", "send back", "money back"]),
   ("shipping", ["ship", "delivery", "track", "arrive", "shipping", "when will"]),
   ("payment", ["payment", "pay", "card", "paypal", "checkout", "billing"]),
   ("products", ["warranty", "guarantee", "specification", "compatible", "feature"]),
   ("account", ["account", "login", "password", "profile", "register", "sign up"]),
   ("promotions", ["discount", "coupon", "sale", "promo", "deal", "offer"])]

/-- Models `sum(1 for keyword in category_keywords if keyword in question_lower)`. -/
def kwScore (ql : String) (kws : List String) : Nat :=
  kws.countP (fun k => decide (occursIn k ql))

/-- The scored category list of `find_best_context`
(`scores[category] = ...` in insertion order). -/
def categoryScores (question : String) : List (String × Nat) :=
  keywordMap.map (fun e => (e.1, kwScore (strLower question) e.2))

/-- Models `max(scores.values())`. -/
def maxScore (question : String) : Nat :=
  ((categoryScores question).map Prod.snd).foldr Nat.max 0

/-- Models `max(scores, key=scores.get)` starting from a first candidate: Python's
`max` keeps the earliest element on ties, replacing the candidate only on a
strictly greater score. -/
def maxBy : String × Nat → List (String × Nat) → String × Nat
  | best, [] => best
  | best, p :: rest => maxBy (if p.2 > best.2 then p else best) rest

/-- The `best_category` computed by `find_best_context`:
`max(scores, key=scores.get) if max(scores.values()) > 0 else "returns"`.
`find_best_context` itself returns the fixed passage
`ECOMMERCE_CONTEXTS[best_category]`; the claims concern the selected
category, so the injective passage lookup is left out of the model.
The model is a pure function, so selection is deterministic by
construction.  (On an empty score list Python's `max` would raise, but
`keywordMap` is a fixed non-empty literal, so the branch is unreachable.) -/
def find_best_category (question : String) : String :=
  match categoryScores question with
  | [] => "returns"
  | s :: rest => if maxScore question > 0 then (maxBy s rest).1 else "returns"

/-- The category keying `get_fallback_answer`: an if-chain of
`any(word in question_lower for word in [...])` tests, in source order,
else the generic `"general"` response. -/
def get_fallback_category (question : String) : String :=
  let ql := strLower question
  if ["return", "refund", "exchange"].any (fun w => decide (occursIn w ql)) then "returns"
  else if ["ship", "delivery", "track"].any (fun w => decide (occursIn w ql)) then "shipping"
  else if ["payment", "pay", "card", "paypal"].any (fun w => decide (occursIn w ql)) then "payment"
  else if ["warranty", "guarantee"].any (fun w => decide (occursIn w ql)) then "products"
  else if ["account", "login", "password"].any (fun w => decide (occursIn w ql)) then "account"
  else if ["discount", "coupon", "sale"].any (fun w => decide (occursIn w ql)) then "promotions"
  else "general"

/-! ### Evaluation harness (`QAEvaluator.evaluate_sample` / `evaluate_dataset`)

The external QA pipeline is opaque: it is modelled as a function from
`(question, context)` to `Option (answer, confidence)`, where `none`
models the model invocation raising an exception.  Wall-clock inference
times are not modelled. -/

/-- The opaque `qa_pipeline` collaborator. -/
def Model : Type :=
  String → String → Option (String × ℚ)

/-- A dataset record's `answer` field: either a plain string or an object
with `text` (and a character offset). -/
inductive AnswerField
  | plain (text : String)
  | withStart (text : String) (answer_start : Nat)

/-- Models `sample['answer']['text'] if isinstance(sample['answer'], dict) else sample['answer']`. -/
def AnswerField.text : AnswerField → String
  | .plain t => t
  | .withStart t _ => t

/-- One dataset record of `evaluate_dataset`. -/
structure Sample where
  question : String
  context : String
  answer : AnswerField

/-- The per-sample result dictionary of `evaluate_sample`
(minus the wall-clock `inference_time`). -/
structure EvalResult where
  prediction : String
  ground_truth : String
  exact_match : Nat
  f1 : ℚ
  confidence : ℚ
  success : Bool
deriving DecidableEq

/-- Models `QAEvaluator.evaluate_sample`: on success scores the prediction; on a
raised exception returns the zero-scored unsuccessful record. -/
def evaluate_sample (model : Model) (question context ground_truth : String) : EvalResult :=
  match model question context with
  | some (prediction, confidence) =>
    { prediction := prediction, ground_truth := ground_truth,
      exact_match := exact_match_score prediction ground_truth,
      f1 := f1_score prediction ground_truth,
      confidence := confidence, success := true }
  | none =>
    { prediction := "", ground_truth := ground_truth,
      exact_match := 0, f1 := 0, confidence := 0, success := false }

/-- The aggregate metrics dictionary of `evaluate_dataset`
(minus `average_inference_time`). -/
structure Metrics where
  exact_match : ℚ
  f1_score : ℚ
  success_rate : ℚ
deriving DecidableEq

/-- The result of `evaluate_dataset`. -/
structure EvalReport where
  dataset_size : Nat
  metrics : Metrics
  detailed_results : List EvalResult

/-- Models `QAEvaluator.evaluate_dataset`: scores every sample, accumulates the
exact-match and f1 sums over the successful samples only, and divides each
total by `len(dataset)` (with the Python `x / len(dataset) if dataset
else 0` guard). -/
def evaluate_dataset (model : Model) (dataset : List Sample) : EvalReport :=
  let results := dataset.map (fun s => evaluate_sample model s.question s.context s.answer.text)
  let successes := results.filter (fun r => r.success)
  let total_em : ℚ := (successes.map (fun r => (r.exact_match : ℚ))).sum
  let total_f1 : ℚ := (successes.map (fun r => r.f1)).sum
  let n := dataset.length
  { dataset_size := n,
    metrics :=
      { exact_match := if n = 0 then 0 else total_em / n,
        f1_score := if n = 0 then 0 else total_f1 / n,
        success_rate := if n = 0 then 0 else (successes.length : ℚ) / n },
    detailed_results := results }

/-- The first category of the fixed iteration order whose score attains the
maximum score (the spec's deterministic tie-break). -/
def firstMaxCat (question : String) : String :=
  match (categoryScores question).find? (fun p => decide (maxScore question ≤ p.2)) with
  | some p => p.1
  | none => "returns"

example : find_best_category "How long do I have to return an item?" = "returns" := by decide
example : find_best_category "track payment" = "payment" := by decide
example : find_best_category "hello" = "returns" := by decide
example : find_best_category "" = "returns" := by decide
example : get_fallback_category "track payment" = "shipping" := by decide
example : get_fallback_category "" = "general" := by decide
example : find_best_category "Warranty?" = "products" := by decide

/-! ### General lemmas -/

theorem bagInter_self {α : Type _} [BEq α] [LawfulBEq α] : ∀ l : List α, l.bagInter l = l
  | [] => rfl
  | a :: l => by
    show (if (a :: l).elem a then a :: List.bagInter l ((a :: l).erase a)
          else List.bagInter l (a :: l)) = a :: l
    rw [if_pos (by simp), List.erase_cons_head, bagInter_self l]

theorem foldr_max_eq_zero {l : List Nat} (h : ∀ x ∈ l, x = 0) : l.foldr Nat.max 0 = 0 := by
  induction l with
  | nil => rfl
  | cons a l ih =>
    simp only [List.foldr_cons, h a (List.mem_cons_self a l),
      ih (fun x hx => h x (List.mem_cons_of_mem a hx)), Nat.max_self]

theorem le_foldr_max {l : List Nat} {x : Nat} (h : x ∈ l) : x ≤ l.foldr Nat.max 0 := by
  induction l with
  | nil => cases h
  | cons a l ih =>
    rcases List.mem_cons.mp h with rfl | hx
    · exact Nat.le_max_left _ _
    · exact le_trans (ih hx) (Nat.le_max_right _ _)

/-- If f1 is given for normalized strings with the identical non-empty token
sequence, the intersection is everything and the score is exactly 1. -/
theorem f1_score_of_eq_tokens (p t : String) (hne : answerTokens p ≠ [])
    (heq : answerTokens p = answerTokens t) : f1_score p t = 1 := by
  have hlen : (answerTokens p).length ≠ 0 := fun h => hne (List.length_eq_zero.mp h)
  have hq : ((answerTokens p).length : ℚ) ≠ 0 := Nat.cast_ne_zero.mpr hlen
  simp only [f1_score, ← heq]
  rw [if_neg (by simp [hlen]), bagInter_self, if_neg hlen, div_self hq]
  norm_num

theorem maxBy_eq_self {b : String × Nat} :
    ∀ {l : List (String × Nat)}, (∀ p ∈ l, p.2 ≤ b.2) → maxBy b l = b
  | [], _ => rfl
  | p :: l, h => by
    have hp : ¬ p.2 > b.2 := not_lt.mpr (h p (List.mem_cons_self p l))
    simp only [maxBy, if_neg hp]
    exact maxBy_eq_self (fun x hx => h x (List.mem_cons_of_mem p hx))

/-- The value list's fold (`max(scores.values())`) on a cons cell. -/
theorem foldr_max_cons (b : String × Nat) (l : List (String × Nat)) :
    ((b :: l).map Prod.snd).foldr Nat.max 0 =
      Nat.max b.2 ((l.map Prod.snd).foldr Nat.max 0) := by
  simp only [List.map_cons, List.foldr_cons]

theorem nmax_zero (a : Nat) : Nat.max a 0 = a := Nat.max_zero a

theorem nmax_eq_right {a b : Nat} (h : a ≤ b) : Nat.max a b = b := Nat.max_eq_right h

theorem nmax_eq_left {a b : Nat} (h : b ≤ a) : Nat.max a b = a := Nat.max_eq_left h

/-- Python's `max(scores, key=scores.get)` returns the first element
attaining the maximum value. -/
theorem find?_max_eq_maxBy :
    ∀ (l : List (String × Nat)) (b : String × Nat),
      (b :: l).find? (fun p => decide (((b :: l).map Prod.snd).foldr Nat.max 0 ≤ p.2)) =
        some (maxBy b l) := by
  intro l
  induction l with
  | nil =>
    intro b
    apply List.find?_cons_of_pos
    rw [foldr_max_cons]
    simp only [List.map_nil, List.foldr_nil, nmax_zero]
    simp
  | cons p l ih =>
    intro b
    by_cases hpb : p.2 > b.2
    · have hple : p.2 ≤ ((p :: l).map Prod.snd).foldr Nat.max 0 :=
        le_foldr_max (by simp)
      have hM : ((b :: p :: l).map Prod.snd).foldr Nat.max 0 =
          ((p :: l).map Prod.snd).foldr Nat.max 0 := by
        rw [foldr_max_cons]
        exact Nat.max_eq_right (le_trans (le_of_lt hpb) hple)
      rw [List.find?_cons_of_neg]
      · rw [hM]
        have hmb : maxBy b (p :: l) = maxBy p l := by
          simp only [maxBy, if_pos hpb]
        rw [hmb]
        exact ih p
      · simp only [decide_eq_true_eq, hM]
        exact fun hc => absurd (lt_of_lt_of_le hpb (le_trans hple hc)) (lt_irrefl _)
    · have hmb : maxBy b (p :: l) = maxBy b l := by
        simp only [maxBy, if_neg hpb]
      by_cases hMb : ((b :: p :: l).map Prod.snd).foldr Nat.max 0 ≤ b.2
      · rw [List.find?_cons_of_pos _ (by simpa using hMb)]
        rw [hmb, maxBy_eq_self]
        intro x hx
        refine le_trans ?_ hMb
        refine le_trans (le_foldr_max (List.mem_map_of_mem Prod.snd hx)) ?_
        rw [foldr_max_cons, foldr_max_cons]
        exact le_trans (Nat.le_max_right _ _) (Nat.le_max_right _ _)
      · have hpb2 : p.2 ≤ b.2 := not_lt.mp hpb
        have hM2 : ((b :: p :: l).map Prod.snd).foldr Nat.max 0 =
            ((b :: l).map Prod.snd).foldr Nat.max 0 := by
          rw [foldr_max_cons, foldr_max_cons, foldr_max_cons]
          rcases Nat.le_total p.2 ((l.map Prod.snd).foldr Nat.max 0) with h | h
          · rw [nmax_eq_right h]
          · exfalso
            apply hMb
            rw [foldr_max_cons, foldr_max_cons, nmax_eq_left h, nmax_eq_left hpb2]
        rw [List.find?_cons_of_neg _ (by simpa using hMb)]
        rw [List.find?_cons_of_neg _ ?hp]
        case hp =>
          simp only [decide_eq_true_eq]
          exact fun hc => hMb (le_trans hc hpb2)
        have hIH := ih b
        rw [List.find?_cons_of_neg _ ?hb] at hIH
        case hb =>
          simp only [decide_eq_true_eq]
          rw [← hM2]
          exact fun hc => hMb hc
        rw [hmb, ← hIH, hM2]

theorem maxBy_unique_pos :
    ∀ (pre : List (String × Nat)) (b x : String × Nat) (post : List (String × Nat)),
      b.2 = 0 → (∀ p ∈ pre, p.2 = 0) → (∀ p ∈ post, p.2 = 0) → 0 < x.2 →
      maxBy b (pre ++ x :: post) = x
  | [], b, x, post, hb, _, hpost, hx => by
    simp only [List.nil_append, maxBy]
    rw [if_pos (by omega)]
    exact maxBy_eq_self (fun p hp => by rw [hpost p hp]; omega)
  | p :: pre, b, x, post, hb, hpre, hpost, hx => by
    simp only [List.cons_append, maxBy]
    rw [if_neg (by rw [hpre p (List.mem_cons_self p pre)]; omega)]
    exact maxBy_unique_pos pre b x post hb
      (fun r hr => hpre r (List.mem_cons_of_mem p hr)) hpost hx

/-- If exactly one entry of the score list has a positive score and all
others score zero, the router selects that entry's category. -/
theorem find_best_category_unique (q : String) (pre post : List (String × Nat))
    (x : String × Nat) (hdecomp : categoryScores q = pre ++ x :: post)
    (hpre : ∀ p ∈ pre, p.2 = 0) (hpost : ∀ p ∈ post, p.2 = 0) (hx : 0 < x.2) :
    find_best_category q = x.1 := by
  have hmax : 0 < maxScore q := by
    have hle : x.2 ≤ maxScore q := by
      apply le_foldr_max
      rw [hdecomp]
      simp
    omega
  rcases pre with _ | ⟨b, pre2⟩
  · simp only [List.nil_append] at hdecomp
    simp only [find_best_category, hdecomp, if_pos hmax]
    rw [maxBy_eq_self (fun p hp => by rw [hpost p hp]; omega)]
  · simp only [List.cons_append] at hdecomp
    simp only [find_best_category, hdecomp, if_pos hmax]
    rw [maxBy_unique_pos pre2 b x post (hpre b (List.mem_cons_self b pre2))
      (fun r hr => hpre r (List.mem_cons_of_mem b hr)) hpost hx]

theorem countP_add_countP_not {α : Type _} (p : α → Bool) :
    ∀ l : List α, l.countP p + l.countP (fun a => !p a) = l.length
  | [] => rfl
  | a :: l => by
    rw [List.countP_cons, List.countP_cons, List.length_cons,
      ← countP_add_countP_not p l]
    cases h : p a <;> simp [h] <;> omega

theorem evaluate_sample_success (model : Model) (q c g : String) :
    (evaluate_sample model q c g).success = (model q c).isSome := by
  rcases h : model q c with _ | ⟨pr, cf⟩ <;> simp [evaluate_sample, h]

theorem evaluate_sample_failure_zero (model : Model) (q c g : String)
    (h : (evaluate_sample model q c g).success = false) :
    (evaluate_sample model q c g).exact_match = 0 ∧
      (evaluate_sample model q c g).f1 = 0 := by
  rcases hm : model q c with _ | ⟨pr, cf⟩ <;> simp [evaluate_sample, hm] at h ⊢

/-- Unsuccessful samples contribute zero, so summing over the successful
results equals summing over all results. -/
theorem sum_map_filter_success (f : EvalResult → ℚ) :
    ∀ l : List EvalResult, (∀ r ∈ l, r.success = false → f r = 0) →
      ((l.filter (fun r => r.success)).map f).sum = (l.map f).sum
  | [], _ => rfl
  | r :: l, h => by
    have ih := sum_map_filter_success f l
      (fun x hx => h x (List.mem_cons_of_mem r hx))
    by_cases hs : r.success
    · rw [List.filter_cons, if_pos (by simpa using hs)]
      simp only [List.map_cons, List.sum_cons, ih]
    · rw [List.filter_cons, if_neg (by simpa using hs)]
      simp only [List.map_cons, List.sum_cons, ih,
        h r (List.mem_cons_self r l) (Bool.not_eq_true _ ▸ by simpa using hs)]
      ring

/-! ### Lemmas towards idempotence of `normalize_answer` (C10) -/

theorem wordChar_space : wordChar ' ' = false := by decide

theorem isSp_space : isSp ' ' = true := by decide

theorem isPunct_space : isPunct ' ' = false := by decide

theorem toLower_space : Char.toLower ' ' = ' ' := by decide

theorem not_wordChar_of_isSp {c : Char} (h : isSp c = true) : wordChar c = false := by
  simp only [isSp, Char.isWhitespace, Bool.or_eq_true, decide_eq_true_eq] at h
  obtain ((rfl | rfl) | rfl) | rfl := h <;> decide

theorem ne_a_t_of_not_wordChar {c : Char} (h : wordChar c = false) :
    c ≠ 'a' ∧ c ≠ 't' := by
  constructor <;> rintro rfl <;> simp [wordChar] at h

theorem toLower_toLower (c : Char) : Char.toLower (Char.toLower c) = Char.toLower c := by
  by_cases h : 65 ≤ c.toNat ∧ c.toNat ≤ 90
  · have he : Char.toLower c = Char.ofNat (c.toNat + 32) := by
      simp only [Char.toLower]
      rw [if_pos h]
    obtain ⟨h1, h2⟩ := h
    rw [he]
    interval_cases c.toNat <;> decide
  · have he : Char.toLower c = c := by
      simp only [Char.toLower]
      rw [if_neg h]
    rw [he, he]

/-! Unfolding equations for `remArt`, one per branch of the scan. -/

theorem remArt_nil (pw : Bool) : remArt pw [] = [] := by cases pw <;> rfl

theorem remArt_true (c : Char) (cs : List Char) :
    remArt true (c :: cs) = c :: remArt (wordChar c) cs := by
  rw [remArt.eq_def]

theorem remArt_an (cs : List Char) :
    remArt false ('a' :: 'n' :: cs) =
      if bAfter cs then ' ' :: remArt true cs
      else 'a' :: remArt true ('n' :: cs) := by
  rw [remArt.eq_def]
  rfl

theorem remArt_a (cs : List Char) (h : ∀ cs2, cs ≠ 'n' :: cs2) :
    remArt false ('a' :: cs) =
      if bAfter cs then ' ' :: remArt true cs
      else 'a' :: remArt true cs := by
  rw [remArt.eq_def]
  split
  all_goals try simp_all
  rename_i hna hnt heq
  obtain ⟨h1, h2⟩ := heq
  exact absurd h1.symm hna

theorem remArt_the (cs : List Char) :
    remArt false ('t' :: 'h' :: 'e' :: cs) =
      if bAfter cs then ' ' :: remArt true cs
      else 't' :: remArt true ('h' :: 'e' :: cs) := by
  rw [remArt.eq_def]
  rfl

theorem remArt_t (cs : List Char) (h : ∀ cs2, cs ≠ 'h' :: 'e' :: cs2) :
    remArt false ('t' :: cs) = 't' :: remArt true cs := by
  rw [remArt.eq_def]
  split
  all_goals try simp_all [wordChar]
  rename_i hna heq
  obtain ⟨h1, h2⟩ := heq
  subst h2
  rw [← h1]
  exact ⟨rfl, rfl⟩

theorem remArt_other {c : Char} (h1 : c ≠ 'a') (h2 : c ≠ 't') (cs : List Char) :
    remArt false (c :: cs) = c :: remArt (wordChar c) cs := by
  rw [remArt.eq_def]
  split
  all_goals simp_all

theorem remArt_notword {c : Char} (h : wordChar c = false) (pw : Bool)
    (cs : List Char) : remArt pw (c :: cs) = c :: remArt false cs := by
  obtain ⟨ha, ht⟩ := ne_a_t_of_not_wordChar h
  cases pw
  · rw [remArt_other ha ht, h]
  · rw [remArt_true, h]

theorem remArt_a_match {d : Char} (cs2 : List Char) (hw : wordChar d = false) :
    remArt false ('a' :: d :: cs2) = ' ' :: remArt true (d :: cs2) := by
  have hdn : d ≠ 'n' := by rintro rfl; simp [wordChar] at hw
  rw [remArt_a (d :: cs2) (fun cs3 hcs => hdn (by injection hcs with hh _)),
    if_pos (by simp [bAfter, hw])]

theorem remArt_a_nomatch {d : Char} (cs2 : List Char) (hd : d ≠ 'n')
    (hw : wordChar d = true) :
    remArt false ('a' :: d :: cs2) = 'a' :: remArt true (d :: cs2) := by
  rw [remArt_a (d :: cs2) (fun cs3 hcs => hd (by injection hcs with hh _)),
    if_neg (by simp [bAfter, hw])]

theorem remArt_a_nil : remArt false ['a'] = [' '] := by
  rw [remArt_a [] (by simp)]
  rfl

theorem remArt_t_nil : remArt false ['t'] = ['t'] := by
  rw [remArt_t [] (by simp), remArt_nil]

theorem remArt_t_one (d : Char) : remArt false ['t', d] = 't' :: remArt true [d] := by
  rw [remArt_t [d] (by simp)]

/-- Appending after a non-word character does not change the boundary test. -/
theorem bAfter_append {c : Char} (hc : wordChar c = false) (rest : List Char) :
    ∀ w : List Char, bAfter (w ++ c :: rest) = bAfter w
  | [] => by simp [bAfter, hc]
  | x :: w => rfl

/-- The scan distributes over a non-word separator: no article can span it,
and the scan state after it is reset. -/
theorem remArt_append_sep {c : Char} (hc : wordChar c = false) :
    ∀ (n : Nat) (w : List Char), w.length ≤ n → ∀ (pw : Bool) (rest : List Char),
      remArt pw (w ++ c :: rest) = remArt pw w ++ c :: remArt false rest := by
  intro n
  induction n with
  | zero =>
    intro w hw pw rest
    rw [List.eq_nil_of_length_eq_zero (Nat.le_zero.mp hw), List.nil_append,
      remArt_nil, List.nil_append, remArt_notword hc]
  | succ n ih =>
    intro w hw pw rest
    rcases w with _ | ⟨a, w⟩
    · rw [List.nil_append, remArt_nil, List.nil_append, remArt_notword hc]
    · simp only [List.length_cons, Nat.add_le_add_iff_right] at hw
      rw [List.cons_append]
      cases pw with
      | true =>
        rw [remArt_true, remArt_true, ih w hw (wordChar a) rest, List.cons_append]
      | false =>
        by_cases haa : a = 'a'
        · subst haa
          rcases w with _ | ⟨d, w2⟩
          · rw [List.nil_append, remArt_a_match rest hc, remArt_true, hc,
              remArt_a_nil]
            rfl
          · have hw2 : w2.length ≤ n := by
              simp only [List.length_cons] at hw; omega
            rw [List.cons_append]
            by_cases hwd : wordChar d = true
            · by_cases hdn : d = 'n'
              · subst hdn
                rw [remArt_an, remArt_an, bAfter_append hc rest w2]
                by_cases hb : bAfter w2 = true
                · rw [if_pos hb, if_pos hb, ih w2 hw2 true rest, List.cons_append]
                · rw [if_neg hb, if_neg hb, ← List.cons_append,
                    ih ('n' :: w2) (by simpa using hw) true rest]
                  rfl
              · rw [remArt_a_nomatch _ hdn hwd, remArt_a_nomatch w2 hdn hwd,
                  ← List.cons_append, ih (d :: w2) (by simpa using hw) true rest]
                rfl
            · have hwd' : wordChar d = false := by simpa using hwd
              rw [remArt_a_match _ hwd', remArt_a_match w2 hwd',
                ← List.cons_append, ih (d :: w2) (by simpa using hw) true rest]
              rfl
        · by_cases hat : a = 't'
          · subst hat
            rcases w with _ | ⟨d, w2⟩
            · have hch : c ≠ 'h' := by
                rintro rfl; simp [wordChar] at hc
              rw [List.nil_append,
                remArt_t (c :: rest) (fun cs2 hcs => hch (by injection hcs with hh _)),
                remArt_true, hc, remArt_t_nil]
              rfl
            · rcases w2 with _ | ⟨e, w3⟩
              · have hce : c ≠ 'e' := by
                  rintro rfl; simp [wordChar] at hc
                rw [List.cons_append, List.nil_append,
                  remArt_t (d :: c :: rest) (fun cs2 hcs => hce (by
                    injection hcs with _ hcs2; injection hcs2 with hh _)),
                  remArt_true, remArt_notword hc, remArt_t_one, remArt_true]
                simp [remArt_nil]
              · have hw3 : w3.length ≤ n := by
                  simp only [List.length_cons] at hw; omega
                rw [List.cons_append, List.cons_append]
                by_cases hthe : d = 'h' ∧ e = 'e'
                · obtain ⟨rfl, rfl⟩ := hthe
                  rw [remArt_the, remArt_the, bAfter_append hc rest w3]
                  by_cases hb : bAfter w3 = true
                  · rw [if_pos hb, if_pos hb, ih w3 hw3 true rest, List.cons_append]
                  · rw [if_neg hb, if_neg hb, ← List.cons_append, ← List.cons_append,
                      ih ('h' :: 'e' :: w3) (by simpa using hw) true rest]
                    rfl
                · have hne : ∀ cs2 : List Char,
                      d :: e :: (w3 ++ c :: rest) ≠ 'h' :: 'e' :: cs2 := by
                    intro cs2 hcs
                    apply hthe
                    injection hcs with h1 hcs2
                    injection hcs2 with h2 _
                    exact ⟨h1, h2⟩
                  have hne2 : ∀ cs2 : List Char,
                      d :: e :: w3 ≠ 'h' :: 'e' :: cs2 := by
                    intro cs2 hcs
                    apply hthe
                    injection hcs with h1 hcs2
                    injection hcs2 with h2 _
                    exact ⟨h1, h2⟩
                  rw [remArt_t _ hne, remArt_t _ hne2, ← List.cons_append,
                    ← List.cons_append,
                    ih (d :: e :: w3) (by simpa using hw) true rest]
                  rfl
          · rw [remArt_other haa hat, remArt_other haa hat,
              ih w hw (wordChar a) rest, List.cons_append]

/-- The article scan is idempotent: a second pass over its output finds no
article left to remove. -/
theorem remArt_idem_aux :
    ∀ (n : Nat) (pw : Bool) (v : List Char), v.length ≤ n →
      remArt pw (remArt pw v) = remArt pw v := by
  intro n
  induction n with
  | zero =>
    intro pw v hv
    rw [List.eq_nil_of_length_eq_zero (Nat.le_zero.mp hv), remArt_nil, remArt_nil]
  | succ n ih =>
    have hafter : ∀ r : List Char, r.length ≤ n + 1 → bAfter r = true →
        remArt false (remArt true r) = remArt true r := by
      intro r hr hb
      rcases r with _ | ⟨e, v4⟩
      · rw [remArt_nil, remArt_nil]
      · have hwe : wordChar e = false := by simpa [bAfter] using hb
        rw [remArt_true, hwe, remArt_notword hwe,
          ih false v4 (by simp only [List.length_cons] at hr; omega)]
    intro pw v hv
    rcases v with _ | ⟨c, v2⟩
    · rw [remArt_nil, remArt_nil]
    · simp only [List.length_cons, Nat.add_le_add_iff_right] at hv
      cases pw with
      | true =>
        rw [remArt_true, remArt_true, ih (wordChar c) v2 hv]
      | false =>
        by_cases hca : c = 'a'
        · subst hca
          rcases v2 with _ | ⟨d, v3⟩
          · rw [remArt_a_nil, remArt_notword wordChar_space, remArt_nil]
          · have hv3 : v3.length ≤ n := by
              simp only [List.length_cons] at hv; omega
            by_cases hwd : wordChar d = true
            · by_cases hm : d = 'n' ∧ bAfter v3 = true
              · obtain ⟨rfl, hb⟩ := hm
                rw [remArt_an, if_pos hb, remArt_notword wordChar_space,
                  hafter v3 (le_trans hv3 (Nat.le_succ n)) hb]
              · by_cases hdn : d = 'n'
                · subst hdn
                  have hb : bAfter v3 = false := by
                    rcases hbv : bAfter v3 with _ | _
                    · rfl
                    · exact absurd ⟨rfl, hbv⟩ hm
                  obtain ⟨f, v5, rfl, hwf⟩ :
                      ∃ f v5, v3 = f :: v5 ∧ wordChar f = true := by
                    rcases v3 with _ | ⟨f, v5⟩
                    · simp [bAfter] at hb
                    · exact ⟨f, v5, rfl, by simpa [bAfter] using hb⟩
                  have hv5 : v5.length ≤ n := by
                    simp only [List.length_cons] at hv; omega
                  rw [remArt_an, if_neg (by simp [hb]), remArt_true,
                    show wordChar 'n' = true from by decide, remArt_true, hwf,
                    remArt_an, if_neg (by simp [bAfter, hwf]), remArt_true,
                    show wordChar 'n' = true from by decide, remArt_true, hwf,
                    ih true v5 hv5]
                · rw [remArt_a_nomatch v3 hdn hwd, remArt_true, hwd,
                    remArt_a_nomatch _ hdn hwd, remArt_true, hwd, ih true v3 hv3]
            · have hwd2 : wordChar d = false := by simpa using hwd
              rw [remArt_a_match v3 hwd2, remArt_true, hwd2,
                remArt_notword wordChar_space, remArt_notword hwd2,
                ih false v3 hv3]
        · by_cases hct : c = 't'
          · subst hct
            rcases v2 with _ | ⟨d, v3⟩
            · rw [remArt_t_nil, remArt_t_nil]
            · rcases v3 with _ | ⟨e, v4⟩
              · rw [remArt_t_one, remArt_true, remArt_nil, remArt_t_one,
                  remArt_true, remArt_nil]
              · have hv4 : v4.length ≤ n := by
                  simp only [List.length_cons] at hv; omega
                by_cases hthe : d = 'h' ∧ e = 'e'
                · obtain ⟨rfl, rfl⟩ := hthe
                  by_cases hb : bAfter v4 = true
                  · rw [remArt_the, if_pos hb, remArt_notword wordChar_space,
                      hafter v4 (le_trans hv4 (Nat.le_succ n)) hb]
                  · obtain ⟨f, v5, rfl, hwf⟩ :
                        ∃ f v5, v4 = f :: v5 ∧ wordChar f = true := by
                      rcases v4 with _ | ⟨f, v5⟩
                      · simp [bAfter] at hb
                      · refine ⟨f, v5, rfl, ?_⟩
                        rcases hwf : wordChar f with _ | _
                        · exact absurd (by simp [bAfter, hwf]) hb
                        · rfl
                    have hv5 : v5.length ≤ n := by
                      simp only [List.length_cons] at hv; omega
                    rw [remArt_the, if_neg hb, remArt_true,
                      show wordChar 'h' = true from by decide, remArt_true,
                      show wordChar 'e' = true from by decide, remArt_true, hwf,
                      remArt_the, if_neg (by simp [bAfter, hwf]), remArt_true,
                      show wordChar 'h' = true from by decide, remArt_true,
                      show wordChar 'e' = true from by decide, remArt_true, hwf,
                      ih true v5 hv5]
                · by_cases hwd : wordChar d = true
                  · have hne : ∀ cs2 : List Char,
                        d :: e :: v4 ≠ 'h' :: 'e' :: cs2 := by
                      intro cs2 hcs
                      apply hthe
                      injection hcs with h1 hcs2
                      injection hcs2 with h2 _
                      exact ⟨h1, h2⟩
                    have hne2 : ∀ cs2 : List Char,
                        d :: e :: remArt (wordChar e) v4 ≠ 'h' :: 'e' :: cs2 := by
                      intro cs2 hcs
                      apply hthe
                      injection hcs with h1 hcs2
                      injection hcs2 with h2 _
                      exact ⟨h1, h2⟩
                    rw [remArt_t _ hne, remArt_true, hwd, remArt_true,
                      remArt_t _ hne2, remArt_true, hwd, remArt_true,
                      ih (wordChar e) v4 hv4]
                  · have hwd2 : wordChar d = false := by simpa using hwd
                    have hv34 : (e :: v4).length ≤ n := by
                      simp only [List.length_cons] at hv ⊢; omega
                    have hne : ∀ cs2 : List Char,
                        d :: e :: v4 ≠ 'h' :: 'e' :: cs2 := by
                      intro cs2 hcs
                      injection hcs with h1 _
                      rw [h1] at hwd2
                      simp [wordChar] at hwd2
                    have hne2 : ∀ cs2 : List Char,
                        d :: remArt false (e :: v4) ≠ 'h' :: 'e' :: cs2 := by
                      intro cs2 hcs
                      injection hcs with h1 _
                      rw [h1] at hwd2
                      simp [wordChar] at hwd2
                    rw [remArt_t _ hne, remArt_true, hwd2,
                      remArt_t _ hne2, remArt_true, hwd2,
                      ih false (e :: v4) hv34]
          · rw [remArt_other hca hct, remArt_other hca hct,
              ih (wordChar c) v2 hv]

/-- The scan never lengthens the string (each step emits one character for
at least one consumed). -/
theorem remArt_length_le (pw : Bool) (cs : List Char) :
    (remArt pw cs).length ≤ cs.length := by
  induction pw, cs using remArt.induct with
  | case1 pw => simp [remArt_nil]
  | case2 c cs ih => rw [remArt_true]; simpa using ih
  | case3 cs hb ih => rw [remArt_an, if_pos hb]; simp; omega
  | case4 cs hb ih => rw [remArt_an, if_neg hb]; simpa using ih
  | case5 cs hne hb ih =>
    rw [remArt_a cs (fun cs2 hcs => hne cs2 hcs), if_pos hb]; simp; omega
  | case6 cs hne hb ih =>
    rw [remArt_a cs (fun cs2 hcs => hne cs2 hcs), if_neg hb]; simpa using ih
  | case7 cs hb ih => rw [remArt_the, if_pos hb]; simp; omega
  | case8 cs hb ih => rw [remArt_the, if_neg hb]; simpa using ih
  | case9 c cs h1 h2 h3 ih =>
    by_cases hct : c = 't'
    · subst hct
      rw [remArt_t cs (fun cs2 hcs => h3 cs2 rfl hcs)]
      rw [show wordChar 't' = true from by decide] at ih
      simpa using ih
    · rw [remArt_other (fun hc => h2 hc) hct]
      simpa using ih

/-- Every character of the scan's output is a character of its input or the
substituted space. -/
theorem mem_remArt (pw : Bool) (cs : List Char) :
    ∀ c ∈ remArt pw cs, c ∈ cs ∨ c = ' ' := by
  induction pw, cs using remArt.induct with
  | case1 pw => simp [remArt_nil]
  | case2 c cs ih =>
    rw [remArt_true]
    intro x hx
    rcases List.mem_cons.mp hx with rfl | hx
    · simp
    · rcases ih x hx with h | h
      · left; simp [h]
      · right; exact h
  | case3 cs hb ih =>
    rw [remArt_an, if_pos hb]
    intro x hx
    rcases List.mem_cons.mp hx with rfl | hx
    · simp
    · rcases ih x hx with h | h
      · left; simp [h]
      · right; exact h
  | case4 cs hb ih =>
    rw [remArt_an, if_neg hb]
    intro x hx
    rcases List.mem_cons.mp hx with rfl | hx
    · simp
    · rcases ih x hx with h | h
      · left; simp [h]
      · right; exact h
  | case5 cs hne hb ih =>
    rw [remArt_a cs (fun cs2 hcs => hne cs2 hcs), if_pos hb]
    intro x hx
    rcases List.mem_cons.mp hx with rfl | hx
    · simp
    · rcases ih x hx with h | h
      · left; simp [h]
      · right; exact h
  | case6 cs hne hb ih =>
    rw [remArt_a cs (fun cs2 hcs => hne cs2 hcs), if_neg hb]
    intro x hx
    rcases List.mem_cons.mp hx with rfl | hx
    · simp
    · rcases ih x hx with h | h
      · left; simp [h]
      · right; exact h
  | case7 cs hb ih =>
    rw [remArt_the, if_pos hb]
    intro x hx
    rcases List.mem_cons.mp hx with rfl | hx
    · simp
    · rcases ih x hx with h | h
      · left; simp [h]
      · right; exact h
  | case8 cs hb ih =>
    rw [remArt_the, if_neg hb]
    intro x hx
    rcases List.mem_cons.mp hx with rfl | hx
    · simp
    · rcases ih x hx with h | h
      · left; simp [h]
      · right; exact h
  | case9 c cs h1 h2 h3 ih =>
    have hstep : remArt false (c :: cs) = c :: remArt (wordChar c) cs := by
      by_cases hct : c = 't'
      · subst hct
        rw [remArt_t cs (fun cs2 hcs => h3 cs2 rfl hcs),
          show wordChar 't' = true from by decide]
      · exact remArt_other (fun hc => h2 hc) hct cs
    rw [hstep]
    intro x hx
    rcases List.mem_cons.mp hx with rfl | hx
    · simp
    · rcases ih x hx with h | h
      · left; simp [h]
      · right; exact h

/-! Splitting and joining on whitespace. -/

theorem splitWs_one (c : Char) :
    splitWs [c] = if isSp c then [] else [[c]] := by
  rw [splitWs.eq_def]

theorem splitWs_cons2 (c d : Char) (cs : List Char) :
    splitWs (c :: d :: cs) =
      if isSp c then splitWs (d :: cs)
      else if isSp d then [c] :: splitWs (d :: cs)
      else
        match splitWs (d :: cs) with
        | [] => [[c]]
        | w :: ws => (c :: w) :: ws := by
  rw [splitWs.eq_def]

theorem splitWs_sp {c : Char} (hc : isSp c = true) (cs : List Char) :
    splitWs (c :: cs) = splitWs cs := by
  rcases cs with _ | ⟨d, cs⟩
  · rw [splitWs_one, if_pos hc]; rfl
  · rw [splitWs_cons2, if_pos hc]

theorem splitWs_notsp {c : Char} (hc : isSp c = false) :
    ∀ cs : List Char,
      splitWs (c :: cs) =
        (c :: cs.takeWhile (fun x => !isSp x)) ::
          splitWs (cs.dropWhile (fun x => !isSp x)) := by
  intro cs
  induction cs generalizing c with
  | nil => rw [splitWs_one, if_neg (by simp [hc])]; rfl
  | cons d cs ih =>
    rw [splitWs_cons2]
    rw [if_neg (by simp [hc])]
    by_cases hd : isSp d
    · rw [if_pos hd, List.takeWhile_cons_of_neg (by simp [hd]),
        List.dropWhile_cons_of_neg (by simp [hd])]
    · have hd' : isSp d = false := by simpa using hd
      rw [if_neg hd, ih hd', List.takeWhile_cons_of_pos (by simp [hd']),
        List.dropWhile_cons_of_pos (by simp [hd'])]

theorem takeWhile_all {α : Type _} {p : α → Bool} :
    ∀ {l : List α}, (∀ x ∈ l, p x = true) → l.takeWhile p = l
  | [], _ => rfl
  | a :: l, h => by
    rw [List.takeWhile_cons_of_pos (h a (List.mem_cons_self a l)),
      takeWhile_all (fun x hx => h x (List.mem_cons_of_mem a hx))]

theorem dropWhile_all {α : Type _} {p : α → Bool} :
    ∀ {l : List α}, (∀ x ∈ l, p x = true) → l.dropWhile p = []
  | [], _ => rfl
  | a :: l, h => by
    rw [List.dropWhile_cons_of_pos (h a (List.mem_cons_self a l)),
      dropWhile_all (fun x hx => h x (List.mem_cons_of_mem a hx))]

theorem takeWhile_append_stop {α : Type _} {p : α → Bool} {y : α} (r : List α)
    (hy : p y = false) :
    ∀ {w : List α}, (∀ x ∈ w, p x = true) → (w ++ y :: r).takeWhile p = w
  | [], _ => by simp [List.takeWhile_cons_of_neg, hy]
  | a :: w, h => by
    rw [List.cons_append,
      List.takeWhile_cons_of_pos (h a (List.mem_cons_self a w)),
      takeWhile_append_stop r hy (fun x hx => h x (List.mem_cons_of_mem a hx))]

theorem dropWhile_append_stop {α : Type _} {p : α → Bool} {y : α} (r : List α)
    (hy : p y = false) :
    ∀ {w : List α}, (∀ x ∈ w, p x = true) → (w ++ y :: r).dropWhile p = y :: r
  | [], _ => by simp [List.dropWhile_cons_of_neg, hy]
  | a :: w, h => by
    rw [List.cons_append,
      List.dropWhile_cons_of_pos (h a (List.mem_cons_self a w)),
      dropWhile_append_stop r hy (fun x hx => h x (List.mem_cons_of_mem a hx))]

/-- Tokens produced by `split()` are non-empty and contain no whitespace. -/
theorem splitWs_tokens :
    ∀ (n : Nat) (cs : List Char), cs.length ≤ n →
      ∀ w ∈ splitWs cs, w ≠ [] ∧ ∀ c ∈ w, isSp c = false := by
  intro n
  induction n with
  | zero =>
    intro cs h
    rw [List.eq_nil_of_length_eq_zero (Nat.le_zero.mp h)]
    simp [splitWs]
  | succ n ih =>
    intro cs h
    rcases cs with _ | ⟨c, cs⟩
    · simp [splitWs]
    · simp only [List.length_cons, Nat.add_le_add_iff_right] at h
      by_cases hc : isSp c
      · rw [splitWs_sp hc]
        exact ih cs h
      · have hc' : isSp c = false := by simpa using hc
        rw [splitWs_notsp hc' cs]
        intro w hw
        rcases List.mem_cons.mp hw with rfl | hw
        · refine ⟨by simp, ?_⟩
          intro x hx
          rcases List.mem_cons.mp hx with rfl | hx
          · exact hc'
          · simpa using List.mem_takeWhile_imp hx
        · exact ih (cs.dropWhile (fun x => !isSp x))
            (le_trans (List.dropWhile_sublist _).length_le h) w hw

/-- Characters of tokens come from the split string. -/
theorem mem_of_mem_splitWs :
    ∀ (n : Nat) (cs : List Char), cs.length ≤ n →
      ∀ w ∈ splitWs cs, ∀ x ∈ w, x ∈ cs := by
  intro n
  induction n with
  | zero =>
    intro cs h
    rw [List.eq_nil_of_length_eq_zero (Nat.le_zero.mp h)]
    simp [splitWs]
  | succ n ih =>
    intro cs h
    rcases cs with _ | ⟨c, cs⟩
    · simp [splitWs]
    · simp only [List.length_cons, Nat.add_le_add_iff_right] at h
      by_cases hc : isSp c
      · rw [splitWs_sp hc]
        intro w hw x hx
        exact List.mem_cons_of_mem c (ih cs h w hw x hx)
      · have hc' : isSp c = false := by simpa using hc
        rw [splitWs_notsp hc' cs]
        intro w hw x hx
        rcases List.mem_cons.mp hw with rfl | hw
        · rcases List.mem_cons.mp hx with rfl | hx
          · exact List.mem_cons_self _ _
          · exact List.mem_cons_of_mem c
              ((List.takeWhile_sublist _).subset hx)
        · exact List.mem_cons_of_mem c
            ((List.dropWhile_sublist _).subset
              (ih (cs.dropWhile (fun x => !isSp x))
                (le_trans (List.dropWhile_sublist _).length_le h) w hw x hx))

theorem joinSp_one (w : List Char) : joinSp [w] = w := by
  rw [joinSp.eq_def]

theorem joinSp_cons2 (w w2 : List Char) (ws : List (List Char)) :
    joinSp (w :: w2 :: ws) = w ++ ' ' :: joinSp (w2 :: ws) := by
  rw [joinSp.eq_def]

theorem mem_joinSp :
    ∀ (ws : List (List Char)) (x : Char), x ∈ joinSp ws →
      (∃ w ∈ ws, x ∈ w) ∨ x = ' ' := by
  intro ws
  induction ws with
  | nil => simp [joinSp]
  | cons w ws ih =>
    rcases ws with _ | ⟨w2, ws2⟩
    · rw [joinSp_one]
      intro x hx
      exact Or.inl ⟨w, List.mem_cons_self _ _, hx⟩
    · rw [joinSp_cons2]
      intro x hx
      rcases List.mem_append.mp hx with hx | hx
      · exact Or.inl ⟨w, List.mem_cons_self _ _, hx⟩
      · rcases List.mem_cons.mp hx with rfl | hx
        · exact Or.inr rfl
        · rcases ih x hx with ⟨w3, hw3, hxw⟩ | h
          · exact Or.inl ⟨w3, List.mem_cons_of_mem w hw3, hxw⟩
          · exact Or.inr h

theorem dropWhile_head_false {α : Type _} {p : α → Bool} :
    ∀ {l : List α} {d : α} {r : List α}, l.dropWhile p = d :: r → p d = false
  | [], d, r, h => by simp at h
  | a :: l, d, r, h => by
    by_cases ha : p a
    · rw [List.dropWhile_cons_of_pos ha] at h
      exact dropWhile_head_false h
    · rw [List.dropWhile_cons_of_neg ha] at h
      injection h with h1 _
      subst h1
      simpa using ha

/-- A non-empty whitespace-free word splits to itself. -/
theorem splitWs_word {w : List Char} (hne : w ≠ [])
    (hnsp : ∀ c ∈ w, isSp c = false) : splitWs w = [w] := by
  rcases w with _ | ⟨c, wt⟩
  · exact absurd rfl hne
  · rw [splitWs_notsp (hnsp c (List.mem_cons_self c wt)) wt,
      takeWhile_all (fun x hx => by
        simp [hnsp x (List.mem_cons_of_mem c hx)]),
      dropWhile_all (fun x hx => by
        simp [hnsp x (List.mem_cons_of_mem c hx)])]
    rfl

/-- Splitting undoes joining: `split` is a left inverse of `' '.join` on
lists of non-empty whitespace-free words. -/
theorem splitWs_joinSp :
    ∀ ws : List (List Char),
      (∀ w ∈ ws, w ≠ [] ∧ ∀ c ∈ w, isSp c = false) →
      splitWs (joinSp ws) = ws := by
  intro ws
  induction ws with
  | nil => intro _; rfl
  | cons w ws ih =>
    intro h
    rcases ws with _ | ⟨w2, ws2⟩
    · rw [joinSp_one]
      exact splitWs_word (h w (List.mem_cons_self _ _)).1
        (h w (List.mem_cons_self _ _)).2
    · rw [joinSp_cons2]
      obtain ⟨hne, hnsp⟩ := h w (List.mem_cons_self _ _)
      rcases w with _ | ⟨c, wt⟩
      · exact absurd rfl hne
      · rw [List.cons_append,
          splitWs_notsp (hnsp c (List.mem_cons_self c wt)) _,
          takeWhile_append_stop _ (by simp [isSp_space])
            (fun x hx => by simp [hnsp x (List.mem_cons_of_mem c hx)]),
          dropWhile_append_stop _ (by simp [isSp_space])
            (fun x hx => by simp [hnsp x (List.mem_cons_of_mem c hx)]),
          splitWs_sp isSp_space,
          ih (fun v hv => h v (List.mem_cons_of_mem _ hv))]

/-- Idempotence of `white_space_fix`. -/
theorem wsFix_idem (u : List Char) : wsFix (wsFix u) = wsFix u :=
  congrArg joinSp
    (splitWs_joinSp (splitWs u)
      (fun w hw => splitWs_tokens u.length u le_rfl w hw))

/-- Every whitespace token of a scan-fixed string is itself scan-fixed
(the scan treats each token independently between whitespace boundaries). -/
theorem remArt_fixed_tokens :
    ∀ (n : Nat) (x : List Char), x.length ≤ n → remArt false x = x →
      ∀ w ∈ splitWs x, remArt false w = w := by
  intro n
  induction n with
  | zero =>
    intro x hx _
    rw [List.eq_nil_of_length_eq_zero (Nat.le_zero.mp hx)]
    simp [splitWs]
  | succ n ih =>
    intro x hx hfix
    rcases x with _ | ⟨c, x2⟩
    · simp [splitWs]
    · simp only [List.length_cons, Nat.add_le_add_iff_right] at hx
      by_cases hc : isSp c
      · have hexp : remArt false (c :: x2) = c :: remArt false x2 :=
          remArt_notword (not_wordChar_of_isSp hc) false x2
        rw [hexp] at hfix
        injection hfix with _ hfix2
        rw [splitWs_sp hc]
        exact ih x2 hx hfix2
      · have hc2 : isSp c = false := by simpa using hc
        have hx2 : x2 = x2.takeWhile (fun ch => !isSp ch) ++
            x2.dropWhile (fun ch => !isSp ch) :=
          (List.takeWhile_append_dropWhile ..).symm
        have hwt_nsp : ∀ ch ∈ x2.takeWhile (fun ch => !isSp ch),
            isSp ch = false := by
          intro ch hch
          simpa using List.mem_takeWhile_imp hch
        rcases hrr : x2.dropWhile (fun ch => !isSp ch) with _ | ⟨d, r2⟩
        · have hxeq : x2 = x2.takeWhile (fun ch => !isSp ch) := by
            conv_lhs => rw [hx2]
            rw [hrr, List.append_nil]

          have hsplit1 : splitWs (c :: x2) = [c :: x2] := by
            apply splitWs_word (by simp)
            intro ch hch
            rcases List.mem_cons.mp hch with rfl | hch
            · exact hc2
            · exact hwt_nsp ch (hxeq ▸ hch)
          rw [hsplit1]
          intro w hw
          rcases List.mem_cons.mp hw with rfl | hw
          · exact hfix
          · simp at hw
        · have hd : isSp d = true := by
            simpa using dropWhile_head_false hrr
          have hdw : wordChar d = false := not_wordChar_of_isSp hd
          have hx3 : c :: x2 =
              (c :: x2.takeWhile (fun ch => !isSp ch)) ++ d :: r2 := by
            conv_lhs => rw [hx2]
            rw [hrr, List.cons_append]
          rw [hx3, remArt_append_sep hdw
            (c :: x2.takeWhile (fun ch => !isSp ch)).length _ le_rfl false r2]
            at hfix
          have hl1 : (remArt false (c :: x2.takeWhile (fun ch => !isSp ch))).length
              ≤ (c :: x2.takeWhile (fun ch => !isSp ch)).length :=
            remArt_length_le false _
          have hl2 : (remArt false r2).length ≤ r2.length :=
            remArt_length_le false r2
          have hlen_eq :
              (remArt false (c :: x2.takeWhile (fun ch => !isSp ch))).length
                = (c :: x2.takeWhile (fun ch => !isSp ch)).length := by
            have hcl := congrArg List.length hfix
            simp only [List.length_append, List.length_cons] at hcl hl1 ⊢
            omega
          obtain ⟨hfix_w, hfix_tail⟩ := List.append_inj hfix hlen_eq
          injection hfix_tail with _ hfix_r2
          have hr2len : r2.length ≤ n := by
            have hds : (x2.dropWhile (fun ch => !isSp ch)).length ≤ x2.length :=
              (List.dropWhile_sublist _).length_le
            rw [hrr] at hds
            simp only [List.length_cons] at hds
            omega
          rw [splitWs_notsp hc2 x2, hrr, splitWs_sp hd]
          intro w hw
          rcases List.mem_cons.mp hw with rfl | hw
          · exact hfix_w
          · exact ih r2 hr2len hfix_r2 w hw

/-- Joining scan-fixed whitespace-free words with single spaces yields a
scan-fixed string. -/
theorem remArt_joinSp :
    ∀ ws : List (List Char), (∀ w ∈ ws, remArt false w = w) →
      remArt false (joinSp ws) = joinSp ws := by
  intro ws
  induction ws with
  | nil => intro _; rw [show joinSp [] = [] from rfl, remArt_nil]
  | cons w ws ih =>
    intro h
    rcases ws with _ | ⟨w2, ws2⟩
    · rw [joinSp_one]
      exact h w (List.mem_cons_self _ _)
    · rw [joinSp_cons2,
        remArt_append_sep wordChar_space w.length w le_rfl false _,
        h w (List.mem_cons_self _ _),
        ih (fun v hv => h v (List.mem_cons_of_mem _ hv))]

theorem map_eq_self_of {α : Type _} {f : α → α} :
    ∀ {l : List α}, (∀ a ∈ l, f a = a) → l.map f = l
  | [], _ => rfl
  | a :: l, h => by
    rw [List.map_cons, h a (List.mem_cons_self a l),
      map_eq_self_of (fun x hx => h x (List.mem_cons_of_mem a hx))]

/-- Characters of the normalized string come from the punctuation-stripped
lower-cased input or are substituted spaces. -/
theorem mem_normChars {cs : List Char} {x : Char} (hx : x ∈ normChars cs) :
    x ∈ remPunc (lowerChars cs) ∨ x = ' ' := by
  rcases mem_joinSp _ x hx with ⟨w, hw, hxw⟩ | h
  · have hxu : x ∈ remArt false (remPunc (lowerChars cs)) :=
      mem_of_mem_splitWs (remArt false (remPunc (lowerChars cs))).length _
        le_rfl w hw x hxw
    exact mem_remArt false _ x hxu
  · exact Or.inr h

/-- The normalized string is already fully lower-cased. -/
theorem lowerChars_normChars (cs : List Char) :
    lowerChars (normChars cs) = normChars cs := by
  apply map_eq_self_of
  intro x hx
  rcases mem_normChars hx with h | rfl
  · have hx2 : x ∈ lowerChars cs := List.mem_of_mem_filter h
    simp only [lowerChars, List.mem_map] at hx2
    obtain ⟨y, _, rfl⟩ := hx2
    exact toLower_toLower y
  · exact toLower_space

/-- The normalized string contains no punctuation. -/
theorem remPunc_normChars (cs : List Char) :
    remPunc (normChars cs) = normChars cs := by
  apply List.filter_eq_self.mpr
  intro x hx
  rcases mem_normChars hx with h | rfl
  · simpa using (List.mem_filter.mp h).2
  · simp [isPunct_space]

/-- The normalized string contains no boundary-delimited article. -/
theorem remArt_normChars (cs : List Char) :
    remArt false (normChars cs) = normChars cs := by
  show remArt false (joinSp (splitWs (remArt false (remPunc (lowerChars cs)))))
    = joinSp (splitWs (remArt false (remPunc (lowerChars cs))))
  apply remArt_joinSp
  intro w hw
  exact remArt_fixed_tokens (remArt false (remPunc (lowerChars cs))).length _
    le_rfl (remArt_idem_aux (remPunc (lowerChars cs)).length false _ le_rfl) w hw

/-- The normalized string has collapsed, trimmed whitespace. -/
theorem wsFix_normChars (cs : List Char) :
    wsFix (normChars cs) = normChars cs :=
  wsFix_idem (remArt false (remPunc (lowerChars cs)))

/-- Character-level idempotence of the full normalization pipeline. -/
theorem normChars_idem (cs : List Char) :
    normChars (normChars cs) = normChars cs := by
  show wsFix (remArt false (remPunc (lowerChars (normChars cs)))) = normChars cs
  rw [lowerChars_normChars, remPunc_normChars, remArt_normChars]
  exact wsFix_normChars cs

/-! ### Claim theorems -/

/-- C2: `normalize_answer` applies, in this exact order, lower-casing, then
punctuation deletion, then whole-word (regex `\b`) article removal, then
whitespace collapapse and trimming; in particular, the spec's worked example
`normalize("The Shipping costs $15.99!") = "shipping costs 1599"` holds. -/
theorem normalize_answer_pipeline (s : String) :
    normalize_answer s = String.mk (wsFix (remArt false (remPunc (lowerChars s.data)))) ∧
    normalize_answer "The Shipping costs $15.99!" = "shipping costs 1599" :=
  ⟨rfl, by decide⟩

/-- C9: evaluating the empty dataset yields zeroed metrics, sample count 0
and no detailed results, with no division by zero (the model is total). -/
theorem evaluate_dataset_empty (model : Model) :
    evaluate_dataset model [] =
      { dataset_size := 0,
        metrics := { exact_match := 0, f1_score := 0, success_rate := 0 },
        detailed_results := [] } :=
  rfl

/-- C3: if no keyword of any category occurs in the lower-cased question
(the empty question included), the router selects the default first-declared
category `"returns"`; the selection function is total, so it never fails and
always returns a category. -/
theorem router_default_of_no_keyword (q : String)
    (h : ∀ e ∈ keywordMap, ∀ k ∈ e.2, ¬ occursIn k (strLower q)) :
    find_best_category q = "returns" := by
  have hz : ∀ p ∈ categoryScores q, p.2 = 0 := by
    intro p hp
    simp only [categoryScores, List.mem_map] at hp
    obtain ⟨e, he, rfl⟩ := hp
    simp only [kwScore, List.countP_eq_zero]
    intro k hk
    simpa using h e he k hk
  have h0 : maxScore q = 0 := by
    apply foldr_max_eq_zero
    intro x hx
    simp only [List.mem_map] at hx
    obtain ⟨p, hp, rfl⟩ := hx
    exact hz p hp
  rcases hcs : categoryScores q with _ | ⟨s, rest⟩
  · simp [categoryScores, keywordMap] at hcs
  · simp [find_best_category, hcs, h0]

/-- C3 witness: the empty question contains no keyword and routes to
`"returns"`. -/
theorem router_default_of_no_keyword_witness :
    (∀ e ∈ keywordMap, ∀ k ∈ e.2, ¬ occursIn k (strLower "")) ∧
    find_best_category "" = "returns" :=
  ⟨by decide, router_default_of_no_keyword "" (by decide)⟩

/-- C8 counterexample: the claimed strict bound `f1 < 1` fails on the pair
`("the express shipping", "express shipping")`: normalization removes the
article `the`, the token sequences coincide, and the score is exactly 1. -/
theorem f1_express_shipping_not_lt_one :
    ¬ (0 < f1_score "the express shipping" "express shipping" ∧
        f1_score "the express shipping" "express shipping" < 1) := by
  rintro ⟨-, hlt⟩
  rw [f1_score_of_eq_tokens _ _ (by decide) (by decide)] at hlt
  exact lt_irrefl 1 hlt

/-- C8 (amended): `f1_score("the express shipping", "express shipping")`
equals exactly 1 (it is greater than 0 but not less than 1), because
normalization removes `the` and the token sequences become identical. -/
theorem f1_express_shipping_eq_one :
    f1_score "the express shipping" "express shipping" = 1 :=
  f1_score_of_eq_tokens _ _ (by decide) (by decide)

/-- C5 counterexample: the fallback's category is not always the router's
category and can even lie outside the router's category set: an empty
question gets the fallback category `"general"`, which is not a knowledge
base category (the router returns `"returns"`), and `"track payment"` gets
the fallback category `"shipping"` while the router's keyword scoring
selects `"payment"`. -/
theorem fallback_category_mismatch :
    get_fallback_category "" = "general" ∧
    "general" ∉ keywordMap.map Prod.fst ∧
    find_best_category "" = "returns" ∧
    get_fallback_category "track payment" = "shipping" ∧
    find_best_category "track payment" = "payment" := by
  refine ⟨by decide, by decide, by decide, by decide, by decide⟩

/-- C5 (amended): on model failure the service substitutes a static
fallback answer selected by a fixed if-chain keyed on subsets of the
router's keyword lists in priority order
returns, shipping, payment, products, account, promotions; every keyword
tested by the fallback belongs to the same-named router category, and the
selected fallback category is either one of the router's six categories or
the extra generic category `"general"` (used when no fallback keyword
matches); the fallback chain is not guaranteed to agree with the router's
maximum-score selection. -/
theorem fallback_category_sound (q : String) :
    (get_fallback_category q ∈ keywordMap.map Prod.fst ++ ["general"]) ∧
    (get_fallback_category q ≠ "general" →
      get_fallback_category q ∈ keywordMap.map Prod.fst) ∧
    (∀ w ∈ ["return", "refund", "exchange"],
      ∃ e ∈ keywordMap, e.1 = "returns" ∧ w ∈ e.2) ∧
    (∀ w ∈ ["ship", "delivery", "track"],
      ∃ e ∈ keywordMap, e.1 = "shipping" ∧ w ∈ e.2) ∧
    (∀ w ∈ ["payment", "pay", "card", "paypal"],
      ∃ e ∈ keywordMap, e.1 = "payment" ∧ w ∈ e.2) ∧
    (∀ w ∈ ["warranty", "guarantee"],
      ∃ e ∈ keywordMap, e.1 = "products" ∧ w ∈ e.2) ∧
    (∀ w ∈ ["account", "login", "password"],
      ∃ e ∈ keywordMap, e.1 = "account" ∧ w ∈ e.2) ∧
    (∀ w ∈ ["discount", "coupon", "sale"],
      ∃ e ∈ keywordMap, e.1 = "promotions" ∧ w ∈ e.2) := by
  refine ⟨?_, ?_, by decide, by decide, by decide, by decide, by decide, by decide⟩
  · simp only [get_fallback_category]
    repeat' split
    all_goals decide
  · simp only [get_fallback_category]
    repeat' split
    all_goals decide

/-- C5 witness: a question hitting the first fallback branch selects the
router category `"returns"`, inside the router's category set. -/
theorem fallback_category_sound_witness :
    get_fallback_category "refund" ∈ keywordMap.map Prod.fst ++ ["general"] ∧
    get_fallback_category "refund" ∈ keywordMap.map Prod.fst :=
  ⟨(fallback_category_sound "refund").1,
    (fallback_category_sound "refund").2.1 (by decide)⟩

/-- C1: for prediction and truth whose normalized forms both have at least
one token, `f1_score` is `2·p·r/(p+r)` for `p = m/|pred|`, `r = m/|truth|`
with `m` the multiset-intersection size, and it is `0` when `m = 0`; when
either token sequence is empty the score is `1` iff both are empty, else
`0`. -/
theorem f1_score_formula (p t : String) :
    (answerTokens p ≠ [] → answerTokens t ≠ [] →
      f1_score p t =
        (if ((answerTokens p).bagInter (answerTokens t)).length = 0 then 0
         else
           2 * ((((answerTokens p).bagInter (answerTokens t)).length : ℚ) /
                  ((answerTokens p).length : ℚ)) *
             ((((answerTokens p).bagInter (answerTokens t)).length : ℚ) /
                ((answerTokens t).length : ℚ)) /
             ((((answerTokens p).bagInter (answerTokens t)).length : ℚ) /
                  ((answerTokens p).length : ℚ) +
               (((answerTokens p).bagInter (answerTokens t)).length : ℚ) /
                  ((answerTokens t).length : ℚ)))) ∧
    ((answerTokens p = [] ∨ answerTokens t = []) →
      f1_score p t = if answerTokens p = answerTokens t then 1 else 0) := by
  constructor
  · intro hp ht
    simp only [f1_score]
    rw [if_neg]
    simp only [List.length_eq_zero, not_or]
    exact ⟨hp, ht⟩
  · intro h
    simp only [f1_score]
    rw [if_pos]
    rcases h with h | h <;> simp [h]

/-- C1 witness: a concrete half-overlapping pair instantiating the formula. -/
theorem f1_score_formula_witness :
    answerTokens "30 days" ≠ [] ∧ answerTokens "thirty days" ≠ [] ∧
    f1_score "30 days" "thirty days" =
      (if ((answerTokens "30 days").bagInter (answerTokens "thirty days")).length = 0 then 0
       else
         2 * ((((answerTokens "30 days").bagInter (answerTokens "thirty days")).length : ℚ) /
                ((answerTokens "30 days").length : ℚ)) *
           ((((answerTokens "30 days").bagInter (answerTokens "thirty days")).length : ℚ) /
              ((answerTokens "thirty days").length : ℚ)) /
           ((((answerTokens "30 days").bagInter (answerTokens "thirty days")).length : ℚ) /
                ((answerTokens "30 days").length : ℚ) +
             (((answerTokens "30 days").bagInter (answerTokens "thirty days")).length : ℚ) /
                ((answerTokens "thirty days").length : ℚ))) :=
  ⟨by decide, by decide,
    (f1_score_formula "30 days" "thirty days").1 (by decide) (by decide)⟩

/-- C6: when the maximum keyword score is positive (in particular when two
or more categories tie on it), the router selects the category that appears
first in the fixed iteration order among those attaining the maximum; the
model is a pure function of the question and the fixed keyword map, so the
selection is deterministic. -/
theorem router_tie_breaks_first_in_order (q : String)
    (hpos : 0 < maxScore q)
    (htie : 2 ≤ (categoryScores q).countP (fun p => decide (p.2 = maxScore q))) :
    find_best_category q = firstMaxCat q := by
  clear htie
  rcases hcs : categoryScores q with _ | ⟨s, rest⟩
  · simp [categoryScores, keywordMap] at hcs
  · have hm : maxScore q = ((s :: rest).map Prod.snd).foldr Nat.max 0 := by
      simp only [maxScore, hcs]
    rw [hm] at hpos
    simp only [find_best_category, firstMaxCat, hcs, hm, if_pos hpos,
      find?_max_eq_maxBy rest s]

/-- C6 witness: `"return track"` scores 1 for both returns and shipping
(a tie on the positive maximum) and routes to the first of them. -/
theorem router_tie_breaks_first_in_order_witness :
    0 < maxScore "return track" ∧
    2 ≤ (categoryScores "return track").countP
        (fun p => decide (p.2 = maxScore "return track")) ∧
    find_best_category "return track" = firstMaxCat "return track" :=
  ⟨by decide, by decide,
    router_tie_breaks_first_in_order "return track" (by decide) (by decide)⟩

/-- C7 counterexample: the keyword `"track"` occurs only in the shipping
category's list, the question `"return track"` contains it, yet the router
selects `"returns"` (the returns keyword `"return"` also matches, and the
tie resolves to the earlier category). -/
theorem router_unique_keyword_counterexample :
    occursIn "track" (strLower "return track") ∧
    (∀ e ∈ keywordMap, "track" ∈ e.2 → e.1 = "shipping") ∧
    find_best_category "return track" = "returns" :=
  ⟨by decide, by decide, by decide⟩

/-- C7 (amended): if the question contains a keyword of one category and
contains no keyword of any other category, the router selects that
category.  (The original claim fails when keywords of several categories
occur in the same question.) -/
theorem router_unique_category_selected (q c : String) (kws : List String)
    (hmem : (c, kws) ∈ keywordMap)
    (hhit : ∃ k ∈ kws, occursIn k (strLower q))
    (hmiss : ∀ e ∈ keywordMap, e.1 ≠ c → ∀ k ∈ e.2, ¬ occursIn k (strLower q)) :
    find_best_category q = c := by
  obtain ⟨pre, post, hsplit⟩ := List.append_of_mem hmem
  have hnodup : (keywordMap.map Prod.fst).Nodup := by decide
  have hfst : keywordMap.map Prod.fst =
      pre.map Prod.fst ++ c :: post.map Prod.fst := by
    rw [hsplit]; simp
  rw [hfst] at hnodup
  have hnd := List.nodup_append.mp hnodup
  have hc_pre : ∀ e ∈ pre, e.1 ≠ c := by
    intro e he heq
    exact hnd.2.2 (heq ▸ List.mem_map_of_mem Prod.fst he)
      (List.mem_cons_self c (post.map Prod.fst))
  have hc_post : ∀ e ∈ post, e.1 ≠ c := by
    intro e he heq
    exact (List.nodup_cons.mp hnd.2.1).1 (heq ▸ List.mem_map_of_mem Prod.fst he)
  have hx : 0 < kwScore (strLower q) kws := by
    obtain ⟨k, hk, hkq⟩ := hhit
    exact List.countP_pos_iff.mpr ⟨k, hk, by simpa using hkq⟩
  have hmain := find_best_category_unique q
    (pre.map (fun e => (e.1, kwScore (strLower q) e.2)))
    (post.map (fun e => (e.1, kwScore (strLower q) e.2)))
    (c, kwScore (strLower q) kws)
    (by simp only [categoryScores, hsplit, List.map_append, List.map_cons])
    ?hpre ?hpost hx
  case hpre =>
    intro p hp
    simp only [List.mem_map] at hp
    obtain ⟨e, he, rfl⟩ := hp
    apply List.countP_eq_zero.mpr
    intro k hk
    simpa using hmiss e (by rw [hsplit]; exact List.mem_append_left _ he)
      (hc_pre e he) k hk
  case hpost =>
    intro p hp
    simp only [List.mem_map] at hp
    obtain ⟨e, he, rfl⟩ := hp
    apply List.countP_eq_zero.mpr
    intro k hk
    simpa using hmiss e
      (by rw [hsplit]
          exact List.mem_append_right _ (List.mem_cons_of_mem _ he))
      (hc_post e he) k hk
  exact hmain

/-- C7 witness: `"warranty please"` contains only the products keyword
`"warranty"` and routes to `"products"`. -/
theorem router_unique_category_selected_witness :
    ("products", ["warranty", "guarantee", "specification", "compatible", "feature"])
      ∈ keywordMap ∧
    (∃ k ∈ ["warranty", "guarantee", "specification", "compatible", "feature"],
      occursIn k (strLower "warranty please")) ∧
    (∀ e ∈ keywordMap, e.1 ≠ "products" →
      ∀ k ∈ e.2, ¬ occursIn k (strLower "warranty please")) ∧
    find_best_category "warranty please" = "products" :=
  ⟨by decide, by decide, by decide,
    router_unique_category_selected "warranty please" "products"
      ["warranty", "guarantee", "specification", "compatible", "feature"]
      (by decide) (by decide) (by decide)⟩

/-- C4: if the model invocation fails for exactly one sample of a batch of
N ≥ 1 samples, evaluation still scores every sample (one detailed result
per sample), the success rate is (N-1)/N, and the failed sample contributes
0 to both score sums: the reported means equal the sums over all detailed
results (failed one included, as 0) divided by N. -/
theorem evaluate_dataset_one_failure (model : Model) (dataset : List Sample)
    (hn : 1 ≤ dataset.length)
    (hfail : dataset.countP (fun s => (model s.question s.context).isNone) = 1) :
    (evaluate_dataset model dataset).detailed_results.length = dataset.length ∧
    (evaluate_dataset model dataset).detailed_results.countP (fun r => r.success)
      = dataset.length - 1 ∧
    (evaluate_dataset model dataset).metrics.success_rate
      = ((dataset.length : ℚ) - 1) / (dataset.length : ℚ) ∧
    (evaluate_dataset model dataset).metrics.exact_match
      = (((evaluate_dataset model dataset).detailed_results.map
            (fun r => (r.exact_match : ℚ))).sum) / (dataset.length : ℚ) ∧
    (evaluate_dataset model dataset).metrics.f1_score
      = (((evaluate_dataset model dataset).detailed_results.map
            (fun r => r.f1)).sum) / (dataset.length : ℚ) := by
  have hzero : ∀ r ∈ dataset.map
      (fun s => evaluate_sample model s.question s.context s.answer.text),
      r.success = false → r.exact_match = 0 ∧ r.f1 = 0 := by
    intro r hr hs
    simp only [List.mem_map] at hr
    obtain ⟨s, _, rfl⟩ := hr
    exact evaluate_sample_failure_zero model _ _ _ hs
  have hcount : (dataset.map
      (fun s => evaluate_sample model s.question s.context s.answer.text)).countP
        (fun r => r.success) = dataset.length - 1 := by
    rw [List.countP_map]
    have hcong : dataset.countP
        ((fun (r : EvalResult) => r.success) ∘
          (fun s => evaluate_sample model s.question s.context s.answer.text))
        = dataset.countP (fun s => (model s.question s.context).isSome) := by
      apply List.countP_congr
      intro s _
      simp [Function.comp, evaluate_sample_success]
    rw [hcong]
    have hsum := countP_add_countP_not
      (fun s => (model s.question s.context).isNone) dataset
    have hiso : dataset.countP (fun s => !(model s.question s.context).isNone)
        = dataset.countP (fun s => (model s.question s.context).isSome) := by
      apply List.countP_congr
      intro s _
      cases model s.question s.context <;> simp
    omega
  have hne : dataset.length ≠ 0 := by omega
  have hfilterlen : ((dataset.map
      (fun s => evaluate_sample model s.question s.context s.answer.text)).filter
        (fun r => r.success)).length = dataset.length - 1 := by
    rw [← List.countP_eq_length_filter]
    exact hcount
  refine ⟨by simp [evaluate_dataset], ?_, ?_, ?_, ?_⟩
  · simpa [evaluate_dataset] using hcount
  · simp only [evaluate_dataset, if_neg hne, hfilterlen]
    congr 1
    rw [Nat.cast_sub hn, Nat.cast_one]
  · simp only [evaluate_dataset, if_neg hne]
    rw [sum_map_filter_success _ _
      (fun r hr hs => by rw [(hzero r hr hs).1, Nat.cast_zero])]
  · simp only [evaluate_dataset, if_neg hne]
    rw [sum_map_filter_success _ _ (fun r hr hs => (hzero r hr hs).2)]

/-- C10: normalization is idempotent: the normalized string contains no
punctuation, no boundary-delimited article word, and no leading, trailing
or repeated whitespace, so a second application of every pipeline stage
(and hence of `normalize_answer` itself) changes nothing. -/
theorem normalize_answer_idempotent (s : String) :
    normalize_answer (normalize_answer s) = normalize_answer s ∧
    remPunc (normalize_answer s).data = (normalize_answer s).data ∧
    remArt false (normalize_answer s).data = (normalize_answer s).data ∧
    wsFix (normalize_answer s).data = (normalize_answer s).data :=
  ⟨congrArg String.mk (normChars_idem s.data),
    remPunc_normChars s.data, remArt_normChars s.data, wsFix_normChars s.data⟩

/-- C4 witness: a two-sample batch whose second model call fails yields
one detailed result per sample, one success, and success rate (2-1)/2. -/
theorem evaluate_dataset_one_failure_witness :
    (evaluate_dataset
        (fun q _ => if q = "q1" then some ("30 days", 9/10) else none)
        [{ question := "q1", context := "ctx", answer := .plain "30 days" },
         { question := "q2", context := "ctx", answer := .plain "1 year" }]).metrics.success_rate
      = (((2 : Nat) : ℚ) - 1) / ((2 : Nat) : ℚ) :=
  (evaluate_dataset_one_failure
    (fun q _ => if q = "q1" then some ("30 days", 9/10) else none)
    [{ question := "q1", context := "ctx", answer := .plain "30 days" },
     { question := "q2", context := "ctx", answer := .plain "1 year" }]
    (by decide) (by decide)).2.2.1

end HelpBubble
